import Mathlib

/-!
# Verification of `typescript-dev-core` utility helpers

Shallow embedding of the string, array, object, async and Result-model
helpers of the repository, together with theorems settling the spec's
claims about them.

Modelling conventions:
* JS strings are modelled as `List Char` (one entry per code point);
  lengths and slicing indices are those of the list.
* JS numbers used as indices/counts are modelled as `Int` where the code
  can observe negatives, and `Nat` where only naturals occur.
* Fallible code (thrown exceptions) is modelled with `Except`.
-/

namespace TsDevCore

/-- JS `String.prototype.slice(start, end)`: negative indices count from the
end, both indices are clamped to `[0, length]`, and an empty list results
when the normalized start is not below the normalized end. -/
def jsSlice (l : List Char) (start stop : Int) : List Char :=
  let len : Int := l.length
  let b : Int := if start < 0 then max (len + start) 0 else min start len
  let e : Int := if stop < 0 then max (len + stop) 0 else min stop len
  if b < e then (l.drop b.toNat).take (e - b).toNat else []

/-- JS `String.prototype.slice(start)` (one-argument form): `end` defaults to
the string length. -/
def jsSlice1 (l : List Char) (start : Int) : List Char :=
  jsSlice l start l.length

/-- Embedding of `truncate` (src/unnamed/part_000):
`if (str.length <= maxLength) return str;
 return str.slice(0, maxLength - ellipsis.length) + ellipsis;` -/
def truncate (str : List Char) (maxLength : Int) (ellipsis : List Char) : List Char :=
  if (str.length : Int) ≤ maxLength then str
  else jsSlice str 0 (maxLength - ellipsis.length) ++ ellipsis

/-- The default ellipsis argument `"..."`. -/
def defaultEllipsis : List Char := ['.', '.', '.']

/-- Embedding of `chunk` (src/unnamed/part_001): `if (size <= 0) return [];`
then the loop `for (let i = 0; i < array.length; i += size)` pushing
`array.slice(i, i + size)`. The loop is rendered as structural recursion on
the not-yet-chunked suffix; `size` is split as `s+1` because the loop is
entered only when `0 < size`. -/
def chunkGo {α : Type} : List α → Nat → List (List α)
  | [], _ => []
  | _ :: _, 0 => []
  | a :: rest, s + 1 =>
      (a :: rest).take (s + 1) :: chunkGo ((a :: rest).drop (s + 1)) (s + 1)
termination_by l _ => l.length
decreasing_by
  simp only [List.length_drop, List.length_cons]
  omega

/-- Embedding of `chunk`'s entry point, with the `size <= 0` guard on a JS
number modelled as `Int`. -/
def chunk {α : Type} (array : List α) (size : Int) : List (List α) :=
  if size ≤ 0 then [] else chunkGo array size.toNat

example : chunk [1, 2, 3, 4, 5] 2 = [[1, 2], [3, 4], [5]] := by
  simp [chunk, chunkGo]
example : chunk ([] : List Nat) 0 = [] := by decide
example : truncate "Hello World".data 8 defaultEllipsis = "Hello...".data := by decide
example : truncate "Short".data 10 defaultEllipsis = "Short".data := by decide
example : truncate "hello".data 2 defaultEllipsis = "hell...".data := by decide

lemma chunkGo_nil_iff {α : Type} (l : List α) (s : Nat) :
    chunkGo l (s + 1) = [] ↔ l = [] := by
  cases l with
  | nil => simp [chunkGo]
  | cons a rest => simp [chunkGo]

lemma chunkGo_join_fuel {α : Type} (s : Nat) :
    ∀ (n : Nat) (l : List α), l.length ≤ n → (chunkGo l (s + 1)).flatten = l := by
  intro n
  induction n with
  | zero =>
    intro l h
    have : l = [] := List.eq_nil_of_length_eq_zero (Nat.le_zero.mp h)
    subst this
    simp [chunkGo]
  | succ n ih =>
    intro l h
    cases l with
    | nil => simp [chunkGo]
    | cons a rest =>
      rw [chunkGo, List.flatten_cons]
      rw [ih ((a :: rest).drop (s + 1)) (by simp [List.length_drop]; simp at h; omega)]
      exact List.take_append_drop _ _

lemma chunkGo_join {α : Type} (l : List α) (s : Nat) :
    (chunkGo l (s + 1)).flatten = l :=
  chunkGo_join_fuel s l.length l le_rfl

lemma chunkGo_dropLast_fuel {α : Type} (s : Nat) :
    ∀ (n : Nat) (l : List α), l.length ≤ n →
      ∀ c ∈ (chunkGo l (s + 1)).dropLast, c.length = s + 1 := by
  intro n
  induction n with
  | zero =>
    intro l h
    have : l = [] := List.eq_nil_of_length_eq_zero (Nat.le_zero.mp h)
    subst this
    simp [chunkGo]
  | succ n ih =>
    intro l h
    cases l with
    | nil => simp [chunkGo]
    | cons a rest =>
      rw [chunkGo]
      rcases Nat.lt_or_ge rest.length (s + 1) with hlt | hge
      · have hdrop : (a :: rest).drop (s + 1) = [] := by
          apply List.drop_eq_nil_of_le
          simp; omega
        rw [hdrop]
        simp [chunkGo]
      · have hne : (a :: rest).drop (s + 1) ≠ [] := by
          intro hcon
          have := congrArg List.length hcon
          simp [List.length_drop] at this
          omega
        have htail : chunkGo ((a :: rest).drop (s + 1)) (s + 1) ≠ [] := fun hcon =>
          hne ((chunkGo_nil_iff _ _).mp hcon)
        rw [List.dropLast_cons_of_ne_nil htail]
        intro c hc
        rcases List.mem_cons.mp hc with rfl | hc
        · rw [List.length_take]
          simp
          omega
        · exact ih ((a :: rest).drop (s + 1))
            (by simp [List.length_drop]; simp at h; omega) c hc

lemma chunkGo_dropLast_length {α : Type} (l : List α) (s : Nat) :
    ∀ c ∈ (chunkGo l (s + 1)).dropLast, c.length = s + 1 :=
  chunkGo_dropLast_fuel s l.length l le_rfl

/-- C9: `chunk [1,2,3,4,5] 2 = [[1,2],[3,4],[5]]`; `chunk arr 0 = []` for every
array; and for every positive size the chunks concatenate back to the input
array while every chunk except possibly the last has length exactly `size`. -/
theorem chunk_spec :
    chunk [1, 2, 3, 4, 5] 2 = [[1, 2], [3, 4], [5]] ∧
    (∀ (α : Type) (arr : List α), chunk arr 0 = []) ∧
    (∀ (α : Type) (arr : List α) (size : Nat), 0 < size →
      (chunk arr size).flatten = arr ∧
      ∀ c ∈ (chunk arr size).dropLast, c.length = size) := by
  refine ⟨by simp [chunk, chunkGo], fun α arr => rfl, fun α arr size hpos => ?_⟩
  obtain ⟨s, rfl⟩ : ∃ s, size = s + 1 := ⟨size - 1, by omega⟩
  have hchunk : chunk arr ((s + 1 : Nat) : Int) = chunkGo arr (s + 1) := by
    rw [chunk, if_neg (by omega)]
    congr 1
  rw [hchunk]
  exact ⟨chunkGo_join arr s, chunkGo_dropLast_length arr s⟩

/-- C9 witness: the general parts of `chunk_spec` evaluated at
`arr = [1,2,3,4,5,6,7]`, `size = 3`. -/
theorem chunk_spec_witness :
    (chunk [1, 2, 3, 4, 5, 6, 7] 3).flatten = [1, 2, 3, 4, 5, 6, 7] ∧
    ∀ c ∈ (chunk [1, 2, 3, 4, 5, 6, 7] 3).dropLast, c.length = 3 :=
  chunk_spec.2.2 Nat [1, 2, 3, 4, 5, 6, 7] 3 (by decide)

lemma jsSlice_zero_len (l : List Char) (e : Int) (h0 : 0 ≤ e)
    (hle : e ≤ (l.length : Int)) : (jsSlice l 0 e).length = e.toNat := by
  simp only [jsSlice]
  rw [if_neg (by omega : ¬ ((0:Int) < 0)), if_neg (by omega : ¬ (e < 0))]
  have hmin0 : min (0:Int) (l.length : Int) = 0 := by omega
  have hmine : min e (l.length : Int) = e := by omega
  rw [hmin0, hmine]
  by_cases hpos : (0:Int) < e
  · rw [if_pos hpos]
    simp only [Int.toNat_zero, List.drop_zero, List.length_take, Int.sub_zero]
    omega
  · rw [if_neg hpos]
    simp only [List.length_nil]
    omega

/-- C2 counterexample: the claim fails at `s = "hello"`, `n = 2` with the
default ellipsis: the string is longer than `n`, but the result is
`"hell..."` (the negative slice end counts from the end of the string), of
length 7, not 2. -/
theorem truncate_claim_counterexample :
    ¬ (∀ (s : List Char) (n : Nat),
        (s.length ≤ n → truncate s n defaultEllipsis = s) ∧
        (n < s.length → (truncate s n defaultEllipsis).length = n)) := by
  intro h
  have h2 := (h "hello".data 2).2 (by decide)
  exact absurd h2 (by decide)

/-- C2 amended: for every string `s` and non-negative `n`, if `s.length ≤ n`
then `truncate s n` returns `s` unchanged; if `s.length > n` the result's
length equals `n` provided `n` is at least the default ellipsis length 3
(for `n < 3` the JS negative slice end makes the result longer than `n`). -/
theorem truncate_spec (s : List Char) (n : Nat) :
    (s.length ≤ n → truncate s n defaultEllipsis = s) ∧
    (3 ≤ n → n < s.length → (truncate s n defaultEllipsis).length = n) := by
  constructor
  · intro h
    rw [truncate, if_pos (by exact_mod_cast h)]
  · intro h3 hlt
    rw [truncate, if_neg (by exact_mod_cast Nat.not_le_of_lt hlt)]
    have hd : (defaultEllipsis.length : Int) = 3 := by decide
    rw [List.length_append, hd]
    rw [jsSlice_zero_len s ((n : Int) - 3) (by omega) (by omega)]
    have : defaultEllipsis.length = 3 := by decide
    rw [this]
    omega

/-- C2 witness: `truncate_spec` at `s = "Hello World"`, `n = 8`: the string is
longer than 8 and the result `"Hello..."` has length exactly 8; and at
`s = "Short"`, `n = 10` the string is returned unchanged. -/
theorem truncate_spec_witness :
    truncate "Short".data 10 defaultEllipsis = "Short".data ∧
    (truncate "Hello World".data 8 defaultEllipsis).length = 8 :=
  ⟨(truncate_spec "Short".data 10).1 (by decide),
   (truncate_spec "Hello World".data 8).2 (by decide) (by decide)⟩

/-- Embedding of `ErrorModel` (src/models/error.model.ts): a static error
descriptor `{code, statusCode, description}`. -/
structure ErrorModel where
  code : String
  statusCode : Nat
  description : String

/-- `Record<string, string[]>` of per-field validation messages. -/
abbrev FieldErrors := List (String × List String)

/-- Runtime shape of a value of the `Result` union (src/models/result.model.ts
and src/unnamed/part_003). Every field is `Option`al: `none` models a field
that is absent or holds `undefined` (the discriminators cannot tell these
apart: a missing own property and a present-but-`undefined` one both fail the
`typeof`/value tests the code performs). `success : Option Bool` models the
JS values `true`/`false`/`undefined`. `brand` models the `__brand` marker that
only the src/unnamed/part_003 variant of the model carries. -/
structure ResultShape (α : Type) where
  success : Option Bool
  data : Option α
  code : Option String
  statusCode : Option Nat
  description : Option String
  fieldErrors : Option FieldErrors
  brand : Option String
deriving DecidableEq

/-- Embedding of `ok` (src/models/result.model.ts): `ok()` (argument
`undefined`, modelled as `none`) yields `{success: true}`; `ok(data)` yields
`{success: true, data}`. -/
def ok {α : Type} (data : Option α) : ResultShape α :=
  match data with
  | none => ⟨some true, none, none, none, none, none, none⟩
  | some d => ⟨some true, some d, none, none, none, none, none⟩

/-- Embedding of `failure` (src/models/result.model.ts): builds
`{success: false, code, statusCode, description, fieldErrors}` from an error
descriptor. -/
def failure {α : Type} (error : ErrorModel) (fieldErrors : Option FieldErrors) :
    ResultShape α :=
  ⟨some false, none, some error.code, some error.statusCode,
    some error.description, fieldErrors, none⟩

/-- Embedding of `isFailureResult` (src/models/result.model.ts):
`result.success === false || (result.success === undefined && "code" in result
&& "description" in result && "statusCode" in result)`. -/
def isFailureResult {α : Type} (result : ResultShape α) : Bool :=
  result.success == some false ||
    (result.success == none && result.code.isSome &&
      result.description.isSome && result.statusCode.isSome)

/-- Embedding of `isSuccessResult` (src/models/result.model.ts):
`result.success === true`. -/
def isSuccessResult {α : Type} (result : ResultShape α) : Bool :=
  result.success == some true

/-- Embedding of the `isFailureResult` variant in src/unnamed/part_003. On a
value of the modelled shape, `typeof result === "object"`, `result !== null`
and `"success" in result` reduce to the checks below; note that
`typeof result.success === "boolean"` (`result.success.isSome`) already rules
out `undefined`, so the `result.success === undefined` disjunct that follows
it in the source is unreachable. -/
def isFailureResultBranded {α : Type} (result : ResultShape α) : Bool :=
  result.success.isSome &&
    (result.success == some false || result.success == none) &&
    result.brand == some "failureResult" &&
    result.code.isSome && result.statusCode.isSome && result.description.isSome

/-- A well-formed `FailureResult`-typed value of the src/unnamed/part_003
model that uses `undefined` as its `success` discriminant — legal there, as
the type is declared `success: false | undefined`. -/
def undefinedSuccessFailure : ResultShape Nat :=
  ⟨none, none, some "common.validation_error", some 400,
    some "Validation failed", none, some "failureResult"⟩

/-- C3: the src/models/result.model.ts discriminators behave as claimed:
`isSuccessResult` holds exactly on `success === true`; `isFailureResult`
accepts both `success === false` and `success === undefined` on a well-formed
failure shape; `ok x` is a success and not a failure; `failure E` is a
failure. But the src/unnamed/part_003 variant rejects the well-formed
`success === undefined` failure value (its `typeof ... === "boolean"` guard
makes the `undefined` disjunct dead code), contradicting its own
`success: false | undefined` type. -/
theorem result_discriminators_spec :
    (∀ (α : Type) (r : ResultShape α), isSuccessResult r = true ↔ r.success = some true) ∧
    (∀ (α : Type) (c : String) (sc : Nat) (d : String) (fe : Option FieldErrors)
        (dat : Option α) (br : Option String),
      isFailureResult ⟨none, dat, some c, some sc, some d, fe, br⟩ = true) ∧
    (∀ (α : Type) (x : Option α),
      isSuccessResult (ok x) = true ∧ isFailureResult (ok x) = false) ∧
    (∀ (α : Type) (e : ErrorModel) (fe : Option FieldErrors),
      isFailureResult (failure (α := α) e fe) = true) ∧
    isFailureResult undefinedSuccessFailure = true ∧
    isFailureResultBranded undefinedSuccessFailure = false := by
  refine ⟨fun α r => ?_, fun α c sc d fe dat br => rfl, fun α x => ?_,
    fun α e fe => rfl, rfl, rfl⟩
  · constructor
    · intro h
      simpa [isSuccessResult] using h
    · intro h
      simp [isSuccessResult, h]
  · cases x <;> exact ⟨rfl, rfl⟩

/-- Embedding of the `FailureResult` type (src/models/result.model.ts): the
`success` discriminant is typed `false | undefined` (modelled `Option Bool`,
`none` = `undefined`); `code`, `statusCode`, `description` are mandatory,
`fieldErrors` optional. -/
structure FailureResult where
  success : Option Bool
  code : String
  statusCode : Nat
  description : String
  fieldErrors : Option FieldErrors

/-- Embedding of the `FailureResultResponse` type (src/models/result.model.ts):
`{code, description, fieldErrors?}` — no `statusCode`. -/
structure FailureResultResponse where
  code : String
  description : String
  fieldErrors : Option FieldErrors

/-- The own property keys created by the object literal
`{code: ..., description: ..., fieldErrors: ...}` in `toFailureResponseStruct`:
always exactly these three (the `fieldErrors` key is created even when its
value is `undefined`). -/
def FailureResultResponse.ownKeys (_ : FailureResultResponse) : List String :=
  ["code", "description", "fieldErrors"]

/-- Embedding of `toFailureResponseStruct` (src/models/result.model.ts and
src/unnamed/part_003, identical): copies `code`, `description` and
`fieldErrors` from the failure value; `statusCode` is dropped. -/
def toFailureResponseStruct (failResult : FailureResult) : FailureResultResponse :=
  { code := failResult.code
    description := failResult.description
    fieldErrors := failResult.fieldErrors }

/-- C8: for every `FailureResult f`, `toFailureResponseStruct f` carries
exactly `f`'s `code`, `description` and (when present) `fieldErrors`,
unchanged, and its own keys do not include `statusCode`. -/
theorem toFailureResponseStruct_spec (f : FailureResult) :
    (toFailureResponseStruct f).code = f.code ∧
    (toFailureResponseStruct f).description = f.description ∧
    (toFailureResponseStruct f).fieldErrors = f.fieldErrors ∧
    "statusCode" ∉ (toFailureResponseStruct f).ownKeys :=
  ⟨rfl, rfl, rfl, by simp [FailureResultResponse.ownKeys]⟩

/-- Options of `retry` (src/unnamed/part_001) with the source's defaults:
`maxRetries = 3`, `initialDelay = 1000`, `maxDelay = 30000`,
`backoffMultiplier = 2`. `shouldRetry` (default: always true) is passed
separately as a function. -/
structure RetryOptions where
  maxRetries : Nat := 3
  initialDelay : Nat := 1000
  maxDelay : Nat := 30000
  backoffMultiplier : Nat := 2

/-- Observable outcome of one `retry` run: the settled value, how many times
the task was invoked, the `onRetry(error, attemptNumber)` calls in order, and
the `sleep` durations in order. -/
structure RetryTrace (E T : Type) where
  result : Except E T
  invocations : Nat
  onRetryCalls : List (E × Nat)
  sleeps : List Nat

/-- Embedding of the `for (let attempt = 0; attempt <= maxRetries; attempt++)`
loop of `retry` (src/unnamed/part_001). The task is modelled as a function
from the invocation number to that invocation's outcome. `remaining` counts
the retries still in budget (`remaining = maxRetries - attempt`), so
`remaining = 0` is the `attempt === maxRetries` exit; on a retained failure
the code logs `onRetry(error, attempt + 1)`, sleeps `min(delay, maxDelay)`
and multiplies the delay by the backoff multiplier. -/
def retryGo {E T : Type} (fn : Nat → Except E T) (shouldRetry : E → Bool)
    (mult maxDelay : Nat) : Nat → Nat → Nat → RetryTrace E T
  | attempt, _, 0 =>
    match fn attempt with
    | .ok v => ⟨.ok v, 1, [], []⟩
    | .error e => ⟨.error e, 1, [], []⟩
  | attempt, delay, r + 1 =>
    match fn attempt with
    | .ok v => ⟨.ok v, 1, [], []⟩
    | .error e =>
      if shouldRetry e then
        let rest := retryGo fn shouldRetry mult maxDelay (attempt + 1) (delay * mult) r
        ⟨rest.result, rest.invocations + 1, (e, attempt + 1) :: rest.onRetryCalls,
          min delay maxDelay :: rest.sleeps⟩
      else ⟨.error e, 1, [], []⟩

/-- Embedding of `retry`'s entry point (src/unnamed/part_001). -/
def retry {E T : Type} (fn : Nat → Except E T) (shouldRetry : E → Bool)
    (options : RetryOptions) : RetryTrace E T :=
  retryGo fn shouldRetry options.backoffMultiplier options.maxDelay
    0 options.initialDelay options.maxRetries

lemma retryGo_invocations_le {E T : Type} (fn : Nat → Except E T)
    (sR : E → Bool) (mult maxDelay : Nat) :
    ∀ (r attempt delay : Nat),
      (retryGo fn sR mult maxDelay attempt delay r).invocations ≤ r + 1 := by
  intro r
  induction r with
  | zero =>
    intro attempt delay
    rw [retryGo]
    cases fn attempt <;> simp
  | succ r ih =>
    intro attempt delay
    rw [retryGo]
    cases fn attempt with
    | ok v => simp
    | error e =>
      by_cases hsr : sR e
      · simp only [hsr, if_true]
        have := ih (attempt + 1) (delay * mult)
        simpa using Nat.succ_le_succ this
      · simp [hsr]

lemma retryGo_all_fail {E T : Type} (fn : Nat → Except E T) (es : Nat → E)
    (mult maxDelay : Nat) (hfail : ∀ n, fn n = .error (es n)) :
    ∀ (r attempt delay : Nat),
      (retryGo (T := T) fn (fun _ => true) mult maxDelay attempt delay r).result =
        .error (es (attempt + r)) := by
  intro r
  induction r with
  | zero =>
    intro attempt delay
    rw [retryGo, hfail attempt]
    simp
  | succ r ih =>
    intro attempt delay
    rw [retryGo, hfail attempt]
    simp only [if_true]
    have hres := ih (attempt + 1) (delay * mult)
    have harg : attempt + 1 + r = attempt + (r + 1) := by omega
    rw [hres, harg]

/-- C1: with `maxRetries = 3`, a task that rejects on its first two
invocations and resolves on the third makes `retry` resolve with the third
invocation's value after calling `onRetry` exactly twice, with attempt
numbers 1 and 2; in general the task is invoked at most `maxRetries + 1`
times, and when every invocation fails and `shouldRetry` stays true the run
rejects with the error of the last attempt (attempt number `maxRetries`). -/
theorem retry_spec :
    (∀ (E T : Type) (fn : Nat → Except E T) (e0 e1 : E) (v : T)
        (options : RetryOptions), options.maxRetries = 3 →
      fn 0 = .error e0 → fn 1 = .error e1 → fn 2 = .ok v →
      (retry fn (fun _ => true) options).result = .ok v ∧
      (retry fn (fun _ => true) options).onRetryCalls = [(e0, 1), (e1, 2)] ∧
      (retry fn (fun _ => true) options).invocations = 3) ∧
    (∀ (E T : Type) (fn : Nat → Except E T) (sR : E → Bool)
        (options : RetryOptions),
      (retry fn sR options).invocations ≤ options.maxRetries + 1) ∧
    (∀ (E T : Type) (fn : Nat → Except E T) (es : Nat → E)
        (options : RetryOptions), (∀ n, fn n = .error (es n)) →
      (retry (T := T) fn (fun _ => true) options).result =
        .error (es options.maxRetries)) := by
  refine ⟨fun E T fn e0 e1 v options hmax h0 h1 h2 => ?_,
    fun E T fn sR options => retryGo_invocations_le fn sR _ _ _ _ _,
    fun E T fn es options hfail => ?_⟩
  · rw [retry, hmax]
    rw [retryGo, h0]
    simp only [if_true]
    rw [retryGo, h1]
    simp only [if_true]
    rw [retryGo, h2]
    exact ⟨rfl, rfl, rfl⟩
  · rw [retry]
    have := retryGo_all_fail fn es options.backoffMultiplier options.maxDelay
      hfail options.maxRetries 0 options.initialDelay
    simpa using this

/-- C1 witness: `retry_spec` applied to a concrete task over `E = String`,
`T = Nat` that fails with `"e0"`, then `"e1"`, then returns 42, and to a
concrete always-failing task, both with the default options. -/
theorem retry_spec_witness :
    ((retry (fun n => if n = 0 then .error "e0" else if n = 1 then .error "e1"
        else .ok 42) (fun _ => true) {}).result = .ok 42 ∧
      (retry (fun n => if n = 0 then .error "e0" else if n = 1 then .error "e1"
        else .ok (42 : Nat)) (fun _ => true) {}).onRetryCalls = [("e0", 1), ("e1", 2)] ∧
      (retry (fun n => if n = 0 then .error "e0" else if n = 1 then .error "e1"
        else .ok (42 : Nat)) (fun _ => true) {}).invocations = 3) ∧
    (retry (T := Nat) (fun n => .error (toString n)) (fun _ => true) {}).result =
      .error "3" :=
  ⟨retry_spec.1 String Nat _ "e0" "e1" 42 {} rfl rfl rfl rfl,
    retry_spec.2.2 String Nat _ (fun n => toString n) {} (fun _ => rfl)⟩

/-- The JS exceptions observable in the modelled string helpers. -/
inductive JsError
  | rangeError
deriving DecidableEq

/-- `Math.ceil(a / b)` on JS numbers, for natural `a`, `b`: dividing by zero
yields `Infinity` (modelled `none`, since `a = padLength > 0` here);
otherwise the exact ceiling. -/
def ceilDivJs (a b : Nat) : Option Nat :=
  if b = 0 then none else some ((a + b - 1) / b)

/-- JS `String.prototype.repeat(count)`: a `count` of `Infinity` (`none`)
throws a `RangeError`; a finite count concatenates `count` copies. -/
def jsRepeat (s : List Char) : Option Nat → Except JsError (List Char)
  | none => .error .rangeError
  | some n => .ok (List.replicate n s).flatten

/-- Embedding of `pad` (src/unnamed/part_000):
`if (str.length >= targetLength) return str;` then
`padding = padString.repeat(Math.ceil(padLength / padString.length))` and a
slice keeping `targetLength` characters from the padded start or end. -/
def pad (str : List Char) (targetLength : Int) (padString : List Char)
    (padStart : Bool) : Except JsError (List Char) :=
  if targetLength ≤ (str.length : Int) then .ok str
  else
    let padLength : Nat := (targetLength - str.length).toNat
    match jsRepeat padString (ceilDivJs padLength padString.length) with
    | .error e => .error e
    | .ok padding =>
      if padStart then .ok (jsSlice1 (padding ++ str) (-targetLength))
      else .ok (jsSlice (str ++ padding) 0 targetLength)

example : pad "5".data 3 "0".data true = .ok "005".data := by rfl
example : pad "5".data 3 "0".data false = .ok "500".data := by rfl
example : pad "hello".data 10 "-".data true = .ok "-----hello".data := by rfl
example : pad "5".data 5 "ab".data true = .ok "abab5".data := by rfl

/-- C6 counterexample: at `str = "a"`, `targetLength = 3`, pad string `""`,
the call terminates and raises a `RangeError` (`"".repeat(Infinity)`), so it
is false that the implementation loops indefinitely without raising an
explicit error. -/
theorem pad_empty_counterexample :
    pad "a".data 3 [] true = .error JsError.rangeError := by rfl

/-- C6 amended: for every string shorter than `targetLength`, `pad` with a
zero-length pad string terminates by raising a `RangeError`: the repeat count
`Math.ceil(padLength / 0)` is `Infinity` and `String.prototype.repeat` throws
on it. No value is returned. -/
theorem pad_empty_raises (str : List Char) (targetLength : Int) (padStart : Bool)
    (h : (str.length : Int) < targetLength) :
    pad str targetLength [] padStart = .error JsError.rangeError := by
  rw [pad, if_neg (by omega)]
  rfl

/-- C6 witness: `pad_empty_raises` at `str = "ab"`, `targetLength = 5`. -/
theorem pad_empty_raises_witness :
    pad "ab".data 5 [] false = .error JsError.rangeError :=
  pad_empty_raises "ab".data 5 false (by decide)

/-- The universe of JS values handled by the object helpers
(src/helpers/object.helper.ts), as pure values: primitives, `null`,
`undefined`, arrays and plain objects (own enumerable string-keyed fields in
insertion order). `Date` and `RegExp` instances are outside the modelled
universe, so the `instanceof Date` / `instanceof RegExp` guards in the source
are vacuously satisfied; object identity and aliasing are not modelled, which
makes `deepClone` the identity on values. -/
inductive JVal where
  | num (n : Int)
  | str (s : String)
  | bool (b : Bool)
  | null
  | undef
  | arr (elems : List JVal)
  | obj (fields : List (String × JVal))

/-- Reading an own property: `fields[key]`, `undefined`-vs-absent collapsed
to `none`. Fields are kept in insertion order with unique keys. -/
def lookupField : List (String × JVal) → String → Option JVal
  | [], _ => none
  | (k, v) :: rest, key => if k = key then some v else lookupField rest key

/-- JS property assignment `o[key] = v` on a plain object: an existing key
keeps its position and gets the new value, a new key is appended. -/
def setField : List (String × JVal) → String → JVal → List (String × JVal)
  | [], key, v => [(key, v)]
  | (k, w) :: rest, key, v =>
    if k = key then (k, v) :: rest else (k, w) :: setField rest key v

/-- `deepClone` (src/helpers/object.helper.ts) recursively copies containers;
on the pure value model a recursive copy is the value itself. -/
def deepClone (v : JVal) : JVal := v

/-- Embedding of the `for (const key in source)` loop of `deepMerge`
(src/helpers/object.helper.ts), for one source object. A source value that is
a truthy non-array object (i.e. a plain object here — `Date`/`RegExp` are
outside the universe and `null` is falsy) whose target value is also a truthy
non-array object is merged recursively; every other source value replaces the
target value (`result[key] = deepClone(sourceValue)`), arrays included. -/
def deepMergeFields : List (String × JVal) → List (String × JVal) → List (String × JVal)
  | t, [] => t
  | t, (k, sv) :: rest =>
    match sv, lookupField t k with
    | .obj sf, some (.obj tf) =>
        deepMergeFields (setField t k (.obj (deepMergeFields tf sf))) rest
    | _, _ => deepMergeFields (setField t k (deepClone sv)) rest
termination_by _ s => sizeOf s
decreasing_by
  all_goals simp_arith

/-- Embedding of `deepMerge(target, source)` (src/helpers/object.helper.ts)
for plain-object arguments (the claim's instances of `T extends object`) and
a single source: `deepClone` the target, then fold the source's fields in. -/
def deepMerge (target source : List (String × JVal)) : List (String × JVal) :=
  deepMergeFields target source

lemma lookup_setField_self (t : List (String × JVal)) (k : String) (v : JVal) :
    lookupField (setField t k v) k = some v := by
  induction t with
  | nil => simp [setField, lookupField]
  | cons h rest ih =>
    obtain ⟨k', w⟩ := h
    by_cases hk : k' = k
    · simp [setField, hk, lookupField]
    · simp [setField, hk, lookupField, ih]

/-- C5: `deepMerge` merges nested plain objects key-by-key but replaces
array-valued fields outright: the two worked examples of the spec hold, and
in general a conflicting array-valued source field overwrites the target
field while a plain-object source field merges recursively with a
plain-object target field. -/
theorem deepMerge_spec :
    deepMerge [("a", JVal.num 1), ("b", JVal.obj [("c", JVal.num 2)])]
        [("b", JVal.obj [("d", JVal.num 3)])] =
      [("a", JVal.num 1), ("b", JVal.obj [("c", JVal.num 2), ("d", JVal.num 3)])] ∧
    deepMerge [("tags", JVal.arr [JVal.str "a"])]
        [("tags", JVal.arr [JVal.str "b"])] =
      [("tags", JVal.arr [JVal.str "b"])] ∧
    (∀ (t : List (String × JVal)) (k : String) (ys : List JVal),
      lookupField (deepMerge t [(k, JVal.arr ys)]) k = some (JVal.arr ys)) ∧
    (∀ (t : List (String × JVal)) (k : String) (tf sf : List (String × JVal)),
      lookupField t k = some (JVal.obj tf) →
      lookupField (deepMerge t [(k, JVal.obj sf)]) k =
        some (JVal.obj (deepMergeFields tf sf))) := by
  refine ⟨by simp [deepMerge, deepMergeFields, lookupField, setField, deepClone],
    by simp [deepMerge, deepMergeFields, lookupField, setField, deepClone],
    fun t k ys => ?_, fun t k tf sf h => ?_⟩
  · rw [deepMerge, deepMergeFields.eq_def]
    simp only [deepClone]
    rw [deepMergeFields]
    exact lookup_setField_self t k (JVal.arr ys)
  · rw [deepMerge, deepMergeFields.eq_def]
    simp only [h]
    rw [deepMergeFields]
    exact lookup_setField_self t k (JVal.obj (deepMergeFields tf sf))

/-- C5 witness: the recursive-merge part of `deepMerge_spec` applied at the
spec's first worked example. -/
theorem deepMerge_spec_witness :
    lookupField
        (deepMerge [("a", JVal.num 1), ("b", JVal.obj [("c", JVal.num 2)])]
          [("b", JVal.obj [("d", JVal.num 3)])]) "b" =
      some (JVal.obj (deepMergeFields [("c", JVal.num 2)] [("d", JVal.num 3)])) :=
  deepMerge_spec.2.2.2 [("a", JVal.num 1), ("b", JVal.obj [("c", JVal.num 2)])]
    "b" [("c", JVal.num 2)] [("d", JVal.num 3)] (by simp [lookupField])

/-- JS `path.split(".")` on the character list of the path: splits at every
dot, keeping empty segments (`"".split(".") = [""]`, `"a..b".split(".") =
["a", "", "b"]`). -/
def splitDot : List Char → List (List Char)
  | [] => [[]]
  | c :: rest =>
    if c = '.' then [] :: splitDot rest
    else
      match splitDot rest with
      | [] => [[c]]
      | s :: ss => (c :: s) :: ss

lemma splitDot_ne_nil (l : List Char) : splitDot l ≠ [] := by
  cases l with
  | nil => simp [splitDot]
  | cons c rest =>
    rw [splitDot]
    by_cases hc : c = '.'
    · simp [hc]
    · simp only [hc, if_false]
      cases splitDot rest <;> simp

/-- `typeof v === "object"` for a modelled value: plain objects, arrays and
`null`. -/
def isTypeofObject : JVal → Bool
  | .obj _ => true
  | .arr _ => true
  | .null => true
  | _ => false

/-- Embedding of the key-walking loop of `setPath`
(src/helpers/object.helper.ts). `cur` models the mutable `current` pointer,
which the code only ever lets point at values of `typeof "object"`. For each
intermediate key (all but the last): an empty key is skipped
(`if (!key) continue`); a missing key or one holding a non-`typeof`-"object"
value is (re)assigned a fresh `{}`; otherwise the existing value is kept.
Walking into a kept `null` or array leaves the modelled universe (JS would
throw a `TypeError` on `null`, or mutate an array), so the embedding returns
`none` there; on the last key, `if (lastKey)` skips the assignment for an
empty key. The source mutates `obj` in place and returns it; the embedding
rebuilds the updated value nondestructively, which agrees with the source on
every run that returns. -/
def setPathGo : JVal → List String → JVal → Option JVal
  | cur, [], _ => some cur
  | cur, [k], v =>
    if k = "" then some cur
    else
      match cur with
      | .obj fields => some (.obj (setField fields k v))
      | _ => none
  | cur, k :: k2 :: rest, v =>
    if k = "" then setPathGo cur (k2 :: rest) v
    else
      match cur with
      | .obj fields =>
        let child :=
          match lookupField fields k with
          | some c => if isTypeofObject c then c else .obj []
          | none => .obj []
        match setPathGo child (k2 :: rest) v with
        | some c2 => some (.obj (setField fields k c2))
        | none => none
      | _ => none

/-- Embedding of `setPath(obj, path, value)` (src/helpers/object.helper.ts):
split the path at dots and walk. -/
def setPath (obj : JVal) (path : String) (value : JVal) : Option JVal :=
  setPathGo obj ((splitDot path.data).map (fun cs => String.mk cs)) value

/-- Embedding of the lookup loop of `getPath` (src/helpers/object.helper.ts):
`if (result && typeof result === "object" && key in result)` descend, else
return the default value. On the modelled universe the conjunction holds
exactly for a plain object carrying the key as an own property (`null` is
falsy, primitives fail the `typeof` test; prototype-chain and array-index
`in` hits are outside the model). -/
def getPathGo : JVal → List String → JVal → JVal
  | result, [], _ => result
  | result, k :: rest, defaultValue =>
    match result with
    | .obj fields =>
      match lookupField fields k with
      | some child => getPathGo child rest defaultValue
      | none => defaultValue
    | _ => defaultValue

/-- Embedding of `getPath(obj, path, defaultValue)`
(src/helpers/object.helper.ts). -/
def getPath (obj : JVal) (path : String) (defaultValue : JVal) : JVal :=
  getPathGo obj ((splitDot path.data).map (fun cs => String.mk cs)) defaultValue

/-- The claim's precondition on `setPath`'s walk, decidably: every
intermediate segment that already exists in the object holds a plain object —
in particular neither `null` nor an array, which `typeof` counts as "object"
and `setPath` therefore keeps and walks into. Missing keys and keys holding
non-"object" values are fine (they get a fresh `{}`). -/
def validIntermediates : JVal → List String → Bool
  | _, [] => true
  | _, [_] => true
  | cur, k :: k2 :: rest =>
    if k = "" then validIntermediates cur (k2 :: rest)
    else
      match cur with
      | .obj fields =>
        match lookupField fields k with
        | some (.obj cf) => validIntermediates (.obj cf) (k2 :: rest)
        | some (.arr _) => false
        | some .null => false
        | some _ => validIntermediates (.obj []) (k2 :: rest)
        | none => validIntermediates (.obj []) (k2 :: rest)
      | _ => false

lemma setPathGo_getPathGo (ks : List String) :
    ∀ (fields : List (String × JVal)) (v d : JVal),
      (∀ k ∈ ks, k ≠ "") → validIntermediates (.obj fields) ks = true →
      ks ≠ [] →
      ∃ r, setPathGo (.obj fields) ks v = some r ∧ getPathGo r ks d = v := by
  induction ks with
  | nil => intro _ _ _ _ _ hne; exact absurd rfl hne
  | cons k rest ih =>
    intro fields v d hkeys hvalid _
    have hk : k ≠ "" := hkeys k (List.mem_cons_self k rest)
    cases rest with
    | nil =>
      refine ⟨.obj (setField fields k v), ?_, ?_⟩
      · simp [setPathGo, hk]
      · simp [getPathGo, lookup_setField_self]
    | cons k2 rest2 =>
      have hkeys2 : ∀ x ∈ k2 :: rest2, x ≠ "" :=
        fun x hx => hkeys x (List.mem_cons_of_mem k hx)
      rw [validIntermediates, if_neg hk] at hvalid
      rcases hchild : lookupField fields k with _ | c
      · rw [hchild] at hvalid
        obtain ⟨r2, hset2, hget2⟩ :=
          ih [] v d hkeys2 hvalid (List.cons_ne_nil k2 rest2)
        refine ⟨.obj (setField fields k r2), ?_, ?_⟩
        · rw [setPathGo, if_neg hk]
          simp only [hchild, hset2]
        · rw [getPathGo]
          simp only [lookup_setField_self, hget2]
      · cases c with
        | obj cf =>
          rw [hchild] at hvalid
          obtain ⟨r2, hset2, hget2⟩ :=
            ih cf v d hkeys2 hvalid (List.cons_ne_nil k2 rest2)
          refine ⟨.obj (setField fields k r2), ?_, ?_⟩
          · rw [setPathGo, if_neg hk]
            simp only [hchild, isTypeofObject, if_true, hset2]
          · rw [getPathGo]
            simp only [lookup_setField_self, hget2]
        | arr elems => rw [hchild] at hvalid; simp [validIntermediates] at hvalid
        | null => rw [hchild] at hvalid; simp [validIntermediates] at hvalid
        | num n =>
          rw [hchild] at hvalid
          obtain ⟨r2, hset2, hget2⟩ :=
            ih [] v d hkeys2 hvalid (List.cons_ne_nil k2 rest2)
          refine ⟨.obj (setField fields k r2), ?_, ?_⟩
          · rw [setPathGo, if_neg hk]
            simp [hchild, isTypeofObject, hset2]
          · rw [getPathGo]
            simp only [lookup_setField_self, hget2]
        | str s =>
          rw [hchild] at hvalid
          obtain ⟨r2, hset2, hget2⟩ :=
            ih [] v d hkeys2 hvalid (List.cons_ne_nil k2 rest2)
          refine ⟨.obj (setField fields k r2), ?_, ?_⟩
          · rw [setPathGo, if_neg hk]
            simp [hchild, isTypeofObject, hset2]
          · rw [getPathGo]
            simp only [lookup_setField_self, hget2]
        | bool b =>
          rw [hchild] at hvalid
          obtain ⟨r2, hset2, hget2⟩ :=
            ih [] v d hkeys2 hvalid (List.cons_ne_nil k2 rest2)
          refine ⟨.obj (setField fields k r2), ?_, ?_⟩
          · rw [setPathGo, if_neg hk]
            simp [hchild, isTypeofObject, hset2]
          · rw [getPathGo]
            simp only [lookup_setField_self, hget2]
        | undef =>
          rw [hchild] at hvalid
          obtain ⟨r2, hset2, hget2⟩ :=
            ih [] v d hkeys2 hvalid (List.cons_ne_nil k2 rest2)
          refine ⟨.obj (setField fields k r2), ?_, ?_⟩
          · rw [setPathGo, if_neg hk]
            simp [hchild, isTypeofObject, hset2]
          · rw [getPathGo]
            simp only [lookup_setField_self, hget2]

/-- C10: for every record, dot-separated path with non-empty segments, and
value, provided every intermediate segment that already exists holds a plain
object (in particular not `null` and not an array), `setPath` succeeds and
`getPath` reads the value back from the path just written; missing
intermediates are created and non-object intermediates replaced by fresh
objects along the way (the `validIntermediates` precondition permits both). -/
theorem setPath_getPath_spec (fields : List (String × JVal)) (p : String)
    (v d : JVal) (hkeys : ∀ k ∈ (splitDot p.data).map (fun cs => String.mk cs), k ≠ "")
    (hvalid : validIntermediates (.obj fields)
      ((splitDot p.data).map (fun cs => String.mk cs)) = true) :
    ∃ r, setPath (.obj fields) p v = some r ∧ getPath r p d = v := by
  have hne : (splitDot p.data).map (fun cs => String.mk cs) ≠ [] := by
    intro h
    exact splitDot_ne_nil p.data (List.map_eq_nil.mp h)
  exact setPathGo_getPathGo _ fields v d hkeys hvalid hne

/-- C10 witness: `setPath_getPath_spec` at `obj = {a: {b: 1}, z: 4}`,
`p = "a.b.c"` (the existing intermediate `a` is a plain object, `b` holds the
number 1 and is replaced by a fresh object), `v = 7`, default `"dflt"`. -/
theorem setPath_getPath_spec_witness :
    ∃ r, setPath (.obj [("a", JVal.obj [("b", JVal.num 1)]), ("z", JVal.num 4)])
        "a.b.c" (JVal.num 7) = some r ∧
      getPath r "a.b.c" (JVal.str "dflt") = JVal.num 7 :=
  setPath_getPath_spec [("a", JVal.obj [("b", JVal.num 1)]), ("z", JVal.num 4)]
    "a.b.c" (JVal.num 7) (JVal.str "dflt") (by decide) (by rfl)

/-- The JS whitespace class (`\s`, also the class trimmed by
`String.prototype.trim`): ASCII whitespace controls, space, NBSP, BOM and the
Unicode space/line/paragraph separators. -/
def jsWhitespace : List Char :=
  ['\t', '\n', '\u000b', '\u000c', '\r', ' ', '\u00a0', '\u1680', '\u2000',
   '\u2001', '\u2002', '\u2003', '\u2004', '\u2005', '\u2006', '\u2007',
   '\u2008', '\u2009', '\u200a', '\u2028', '\u2029', '\u202f', '\u205f',
   '\u3000', '\ufeff']

/-- Membership in the `\s` class. -/
def isJsSpace (c : Char) : Bool := jsWhitespace.contains c

/-- The `\w` class of JS regexes (no `u` flag): `[A-Za-z0-9_]`, by code
point (`A` = 65, `Z` = 90, `a` = 97, `z` = 122, `0` = 48, `9` = 57,
`_` = 95). -/
def isWordChar (c : Char) : Bool :=
  (97 ≤ c.toNat && c.toNat ≤ 122) || (65 ≤ c.toNat && c.toNat ≤ 90) ||
    (48 ≤ c.toNat && c.toNat ≤ 57) || c.toNat == 95

/-- `String.prototype.toLowerCase`, modelled on the ASCII fragment: `A`-`Z`
map down by 32, any other code point is kept. (Non-ASCII case mappings are
immaterial here: a non-ASCII letter is removed by the `[^\w\s-]` filter
whether lowercased or not.) -/
def jsToLower (c : Char) : Char :=
  if 65 ≤ c.toNat ∧ c.toNat ≤ 90 then Char.ofNat (c.toNat + 32) else c

/-- `String.prototype.trim`: drop `\s` characters from both ends. -/
def jsTrim (l : List Char) : List Char :=
  ((l.dropWhile isJsSpace).reverse.dropWhile isJsSpace).reverse

/-- The class `[\s_-]` collapsed to a hyphen by `slugify`'s second
`replace`. -/
def isSepChar (c : Char) : Bool := isJsSpace c || c.toNat == 95 || c.toNat == 45

/-- The characters kept by `.replace(/[^\w\s-]/g, "")`. -/
def keepSlugChar (c : Char) : Bool := isWordChar c || isJsSpace c || c.toNat == 45

/-- `.replace(/[\s_-]+/g, "-")`: each maximal nonempty run of `[\s_-]`
becomes a single hyphen. -/
def collapseSeps : List Char → List Char
  | [] => []
  | c :: rest =>
    if isSepChar c then '-' :: collapseSeps (rest.dropWhile isSepChar)
    else c :: collapseSeps rest
termination_by l => l.length
decreasing_by
  all_goals simp only [List.length_cons]
  · have h := (List.dropWhile_suffix (l := rest) isSepChar).length_le
    omega
  · omega

/-- `.replace(/^-+|-+$/g, "")`: drop the leading run and the trailing run of
hyphens. -/
def stripEdgeHyphens (l : List Char) : List Char :=
  ((l.dropWhile (fun c => c == '-')).reverse.dropWhile (fun c => c == '-')).reverse

/-- Embedding of `slugify` (src/unnamed/part_000): lower-case, trim, remove
`[^\w\s-]`, collapse `[\s_-]+` runs to single hyphens, strip edge hyphens. -/
def slugify (str : List Char) : List Char :=
  stripEdgeHyphens (collapseSeps ((jsTrim (str.map jsToLower)).filter keepSlugChar))

/-- A lowercase ASCII letter, ASCII digit, or hyphen. -/
def isSlugChar (c : Char) : Bool :=
  (97 ≤ c.toNat && c.toNat ≤ 122) || (48 ≤ c.toNat && c.toNat ≤ 57) ||
    c.toNat == 45

example : slugify "Hello World!".data = "hello-world".data := by
  simp [slugify, jsTrim, stripEdgeHyphens, collapseSeps, jsToLower, isSepChar,
    isJsSpace, jsWhitespace, keepSlugChar, isWordChar]

lemma head?_dropWhile_some (p : Char → Bool) (l : List Char) (c0 : Char)
    (h : (l.dropWhile p).head? = some c0) : p c0 = false := by
  have hall := List.head?_dropWhile_not p l
  cases hdw : l.dropWhile p with
  | nil => rw [hdw] at h; cases h
  | cons x tl =>
    rw [hdw] at h hall
    simp at h hall
    subst h
    simpa using hall

lemma dropWhile_getLast?_of_ne_nil (p : Char → Bool) (l : List Char)
    (h : l.dropWhile p ≠ []) : (l.dropWhile p).getLast? = l.getLast? := by
  induction l with
  | nil => simp [List.dropWhile] at h
  | cons c rest ih =>
    by_cases hc : p c
    · have hd : (c :: rest).dropWhile p = rest.dropWhile p := by
        simp [List.dropWhile_cons, hc]
      rw [hd] at h ⊢
      cases rest with
      | nil => simp [List.dropWhile] at h
      | cons r rs => rw [ih h, List.getLast?_cons_cons]
    · have hd : (c :: rest).dropWhile p = c :: rest := by
        simp [List.dropWhile_cons, hc]
      rw [hd]

lemma collapseSeps_mem_fuel :
    ∀ (n : Nat) (l : List Char), l.length ≤ n →
      ∀ c ∈ collapseSeps l, c = '-' ∨ (c ∈ l ∧ isSepChar c = false) := by
  intro n
  induction n with
  | zero =>
    intro l h
    have : l = [] := List.eq_nil_of_length_eq_zero (Nat.le_zero.mp h)
    subst this
    simp [collapseSeps]
  | succ n ih =>
    intro l h c hc
    cases l with
    | nil => simp [collapseSeps] at hc
    | cons a rest =>
      rw [collapseSeps] at hc
      by_cases ha : isSepChar a
      · rw [if_pos ha] at hc
        rcases List.mem_cons.mp hc with rfl | hc2
        · exact Or.inl rfl
        · have hlen : (rest.dropWhile isSepChar).length ≤ n := by
            have hmono := (List.dropWhile_suffix (l := rest) isSepChar).length_le
            simp at h
            omega
          rcases ih _ hlen c hc2 with h1 | ⟨h2, h3⟩
          · exact Or.inl h1
          · exact Or.inr
              ⟨List.mem_cons_of_mem a ((List.dropWhile_suffix isSepChar).subset h2), h3⟩
      · rw [if_neg ha] at hc
        rcases List.mem_cons.mp hc with rfl | hc2
        · exact Or.inr ⟨List.mem_cons_self _ _, by simpa using ha⟩
        · have hlen : rest.length ≤ n := by simp at h; omega
          rcases ih _ hlen c hc2 with h1 | ⟨h2, h3⟩
          · exact Or.inl h1
          · exact Or.inr ⟨List.mem_cons_of_mem a h2, h3⟩

lemma collapseSeps_head_ne (l : List Char)
    (hhead : ∀ c0, l.head? = some c0 → isSepChar c0 = false) :
    (collapseSeps l).head? ≠ some '-' := by
  cases l with
  | nil => simp [collapseSeps]
  | cons a rest =>
    have ha := hhead a rfl
    rw [collapseSeps, if_neg (by simp [ha])]
    simp only [List.head?_cons]
    intro hcon
    have haeq : a = '-' := by simpa using hcon
    subst haeq
    exact absurd ha (by decide)

lemma collapseSeps_chain_fuel :
    ∀ (n : Nat) (l : List Char), l.length ≤ n →
      List.Chain' (fun x y => x ≠ '-' ∨ y ≠ '-') (collapseSeps l) := by
  intro n
  induction n with
  | zero =>
    intro l h
    have : l = [] := List.eq_nil_of_length_eq_zero (Nat.le_zero.mp h)
    subst this
    simp [collapseSeps]
  | succ n ih =>
    intro l h
    cases l with
    | nil => simp [collapseSeps]
    | cons a rest =>
      rw [collapseSeps]
      by_cases ha : isSepChar a
      · rw [if_pos ha, List.chain'_cons']
        refine ⟨fun b hb => ?_, ?_⟩
        · right
          intro hbcon
          subst hbcon
          exact collapseSeps_head_ne (rest.dropWhile isSepChar)
            (fun c0 h0 => head?_dropWhile_some isSepChar rest c0 h0) hb
        · apply ih
          have hmono := (List.dropWhile_suffix (l := rest) isSepChar).length_le
          simp at h
          omega
      · rw [if_neg ha, List.chain'_cons']
        refine ⟨fun b hb => ?_, ?_⟩
        · left
          intro hacon
          subst hacon
          exact absurd (by decide : isSepChar '-' = true) (by simpa using ha)
        · apply ih
          simp at h
          omega

lemma stripEdgeHyphens_subset (l : List Char) :
    ∀ c ∈ stripEdgeHyphens l, c ∈ l := by
  intro c hc
  rw [stripEdgeHyphens, List.mem_reverse] at hc
  have h1 := (List.dropWhile_suffix (fun c => c == '-')).subset hc
  rw [List.mem_reverse] at h1
  exact (List.dropWhile_suffix (fun c => c == '-')).subset h1

lemma stripEdgeHyphens_head (l : List Char) :
    (stripEdgeHyphens l).head? ≠ some '-' := by
  rw [stripEdgeHyphens, List.head?_reverse]
  by_cases hm :
      ((l.dropWhile (fun c => c == '-')).reverse.dropWhile (fun c => c == '-')) = []
  · rw [hm]; simp
  · rw [dropWhile_getLast?_of_ne_nil _ _ hm, List.getLast?_reverse]
    intro hcon
    exact absurd (head?_dropWhile_some (fun c => c == '-') l '-' hcon) (by decide)

lemma stripEdgeHyphens_getLast (l : List Char) :
    (stripEdgeHyphens l).getLast? ≠ some '-' := by
  rw [stripEdgeHyphens, List.getLast?_reverse]
  intro hcon
  exact absurd
    (head?_dropWhile_some (fun c => c == '-')
      (l.dropWhile (fun c => c == '-')).reverse '-' hcon) (by decide)

lemma stripEdgeHyphens_chain (l : List Char)
    (h : List.Chain' (fun x y => x ≠ '-' ∨ y ≠ '-') l) :
    List.Chain' (fun x y => x ≠ '-' ∨ y ≠ '-') (stripEdgeHyphens l) := by
  rw [stripEdgeHyphens]
  have h1 := h.suffix (List.dropWhile_suffix (fun c => c == '-'))
  have h2 := List.chain'_reverse.mpr (h1.imp (fun a b hab => hab.symm))
  have h3 := h2.suffix (List.dropWhile_suffix (fun c => c == '-'))
  exact List.chain'_reverse.mpr (h3.imp (fun a b hab => hab.symm))

lemma jsTrim_subset (l : List Char) : ∀ c ∈ jsTrim l, c ∈ l := by
  intro c hc
  rw [jsTrim, List.mem_reverse] at hc
  have h1 := (List.dropWhile_suffix isJsSpace).subset hc
  rw [List.mem_reverse] at h1
  exact (List.dropWhile_suffix isJsSpace).subset h1

lemma char_toNat_ofNat_lower (n : Nat) (h1 : 97 ≤ n) (h2 : n ≤ 122) :
    (Char.ofNat n).toNat = n := by
  rw [Char.ofNat, dif_pos (Or.inl (by omega) : n.isValidChar)]
  rw [Char.ofNatAux]
  simp [Char.toNat, UInt32.toNat, BitVec.toNat_ofNatLt]

lemma jsToLower_not_upper (c : Char) :
    ¬ (65 ≤ (jsToLower c).toNat ∧ (jsToLower c).toNat ≤ 90) := by
  rw [jsToLower]
  by_cases h : 65 ≤ c.toNat ∧ c.toNat ≤ 90
  · rw [if_pos h]
    rw [char_toNat_ofNat_lower (c.toNat + 32) (by omega) (by omega)]
    omega
  · rw [if_neg h]
    exact h

/-- C7: every character of `slugify s` is a lowercase ASCII letter, an ASCII
digit or a hyphen; no two adjacent characters are both hyphens; and the
result neither starts nor ends with a hyphen. -/
theorem slugify_spec (s : List Char) :
    (slugify s).all isSlugChar = true ∧
    List.Chain' (fun x y => x ≠ '-' ∨ y ≠ '-') (slugify s) ∧
    (slugify s).head? ≠ some '-' ∧
    (slugify s).getLast? ≠ some '-' := by
  refine ⟨?_, ?_, stripEdgeHyphens_head _, stripEdgeHyphens_getLast _⟩
  · rw [List.all_eq_true]
    intro c hc
    have hc2 := stripEdgeHyphens_subset _ c hc
    rcases collapseSeps_mem_fuel _ _ le_rfl c hc2 with rfl | ⟨hmem, hsep⟩
    · decide
    · have hkeep : keepSlugChar c = true := List.of_mem_filter hmem
      have hmem2 : c ∈ jsTrim (s.map jsToLower) := List.mem_of_mem_filter hmem
      have hmem3 : c ∈ s.map jsToLower := jsTrim_subset _ c hmem2
      obtain ⟨c', -, rfl⟩ := List.mem_map.mp hmem3
      have hup := jsToLower_not_upper c'
      rw [isSepChar] at hsep
      simp only [Bool.or_eq_false_iff, beq_eq_false_iff_ne, ne_eq] at hsep
      obtain ⟨⟨hnospace, hno95⟩, hno45⟩ := hsep
      rw [keepSlugChar] at hkeep
      simp only [Bool.or_eq_true, beq_iff_eq] at hkeep
      rcases hkeep with (hword | hspace) | h45
      · rw [isWordChar] at hword
        simp only [Bool.or_eq_true, Bool.and_eq_true, decide_eq_true_eq,
          beq_iff_eq] at hword
        rw [isSlugChar]
        simp only [Bool.or_eq_true, Bool.and_eq_true, decide_eq_true_eq,
          beq_iff_eq]
        omega
      · rw [hspace] at hnospace
        exact Bool.noConfusion hnospace
      · exact absurd h45 hno45
  · exact stripEdgeHyphens_chain _ (collapseSeps_chain_fuel _ _ le_rfl)

/-- State of the cooperative (single-threaded, event-loop) execution of
`parallelLimit` (src/unnamed/part_001): the current time, the executing set
(original task index, completion time) in insertion order, the results array
(`new Array(tasks.length)`, a hole — `none` — until written), and the largest
number of concurrently unsettled tasks observed so far. Task `i` is modelled
as resolving with `f i` after `d i` time units from its start. -/
structure PLState (α : Type) where
  time : Nat
  inflight : List (Nat × Nat)
  results : List (Option α)
  maxIn : Nat

/-- The time at which `Promise.race(executing)` resolves: the earliest
completion time in the executing set. -/
def minComp : List (Nat × Nat) → Nat
  | [] => 0
  | [p] => p.2
  | p :: q :: rest => min p.2 (minComp (q :: rest))

/-- The `.then` bookkeeping of each settling promise:
`results[index] = result` (then it leaves the executing set). -/
def settleWrites {α : Type} (f : Nat → α) (done : List (Nat × Nat))
    (rs : List (Option α)) : List (Option α) :=
  done.foldl (fun rs p => rs.set p.1 (some (f p.1))) rs

/-- `await Promise.race(executing)`: time advances to the earliest completion;
every promise due by then settles, writes its slot and is deleted from the
executing set. -/
def raceSettle {α : Type} (f : Nat → α) (st : PLState α) : PLState α :=
  let t := minComp st.inflight
  ⟨t, st.inflight.filter (fun p => ! decide (p.2 ≤ t)),
    settleWrites f (st.inflight.filter (fun p => decide (p.2 ≤ t))) st.results,
    st.maxIn⟩

/-- The admission loop of `parallelLimit` over the remaining task indices:
start the next task (synchronously, so no time passes), add its promise to
the executing set, record the new unsettled count, and if the set has reached
`concurrency`, await the race before admitting more. -/
def plLoop {α : Type} (f : Nat → α) (d : Nat → Nat) (c : Nat) :
    List Nat → PLState α → PLState α
  | [], st => st
  | i :: rest, st =>
    let fl := st.inflight ++ [(i, st.time + d i)]
    let st1 : PLState α := ⟨st.time, fl, st.results, max st.maxIn fl.length⟩
    if c ≤ fl.length then plLoop f d c rest (raceSettle f st1)
    else plLoop f d c rest st1

/-- `await Promise.all(executing)` after the loop: every still-executing
promise settles and writes its slot. -/
def plDrain {α : Type} (f : Nat → α) (st : PLState α) : PLState α :=
  ⟨st.time, [], settleWrites f st.inflight st.results, st.maxIn⟩

/-- Embedding of `parallelLimit(tasks, concurrency)` (src/unnamed/part_001)
for `n` tasks where task `i` resolves with `f i` after `d i` time units:
returns the final results array and the largest number of concurrently
unsettled tasks observed. -/
def parallelLimit {α : Type} (f : Nat → α) (d : Nat → Nat) (n c : Nat) :
    List (Option α) × Nat :=
  let st := plDrain f (plLoop f d c (List.range n) ⟨0, [], List.replicate n none, 0⟩)
  (st.results, st.maxIn)

lemma minComp_attained (l : List (Nat × Nat)) (h : l ≠ []) :
    ∃ p ∈ l, p.2 ≤ minComp l := by
  induction l with
  | nil => exact absurd rfl h
  | cons p rest ih =>
    cases rest with
    | nil => exact ⟨p, List.mem_singleton.mpr rfl, by simp [minComp]⟩
    | cons q rest2 =>
      rw [minComp]
      by_cases hpm : p.2 ≤ minComp (q :: rest2)
      · exact ⟨p, List.mem_cons_self _ _, by omega⟩
      · obtain ⟨q', hq', hle⟩ := ih (List.cons_ne_nil _ _)
        exact ⟨q', List.mem_cons_of_mem _ hq', by omega⟩

lemma settleWrites_length {α : Type} (f : Nat → α) (ps : List (Nat × Nat)) :
    ∀ rs : List (Option α), (settleWrites f ps rs).length = rs.length := by
  induction ps with
  | nil => intro rs; rfl
  | cons p ps ih =>
    intro rs
    rw [settleWrites, List.foldl_cons]
    rw [show ps.foldl (fun rs p => rs.set p.1 (some (f p.1)))
        (rs.set p.1 (some (f p.1))) =
      settleWrites f ps (rs.set p.1 (some (f p.1))) from rfl]
    rw [ih]
    exact List.length_set _ _ _

lemma settleWrites_preserve {α : Type} (f : Nat → α) (ps : List (Nat × Nat)) :
    ∀ (rs : List (Option α)) (j : Nat), rs[j]? = some (some (f j)) →
      (settleWrites f ps rs)[j]? = some (some (f j)) := by
  induction ps with
  | nil => intro rs j h; exact h
  | cons p ps ih =>
    intro rs j h
    rw [settleWrites, List.foldl_cons]
    rw [show ps.foldl (fun rs p => rs.set p.1 (some (f p.1)))
        (rs.set p.1 (some (f p.1))) =
      settleWrites f ps (rs.set p.1 (some (f p.1))) from rfl]
    apply ih
    rw [List.getElem?_set]
    by_cases hpj : p.1 = j
    · have hj : j < rs.length := by
        by_contra hcon
        rw [List.getElem?_eq_none (by omega)] at h
        cases h
      subst hpj
      rw [if_pos rfl, if_pos (by omega)]
    · rw [if_neg hpj]
      exact h

lemma settleWrites_write {α : Type} (f : Nat → α) (ps : List (Nat × Nat)) :
    ∀ (rs : List (Option α)) (j : Nat), j < rs.length → j ∈ ps.map Prod.fst →
      (settleWrites f ps rs)[j]? = some (some (f j)) := by
  induction ps with
  | nil => intro rs j _ hmem; simp at hmem
  | cons p ps ih =>
    intro rs j hj hmem
    rw [settleWrites, List.foldl_cons]
    rw [show ps.foldl (fun rs p => rs.set p.1 (some (f p.1)))
        (rs.set p.1 (some (f p.1))) =
      settleWrites f ps (rs.set p.1 (some (f p.1))) from rfl]
    rw [List.map_cons] at hmem
    rcases List.mem_cons.mp hmem with heq | hmem2
    · subst heq
      apply settleWrites_preserve
      rw [List.getElem?_set, if_pos rfl, if_pos hj]
    · exact ih _ j (by rw [List.length_set]; exact hj) hmem2

/-- Every result slot below `n` is either already written with its task's
value, or its task is still executing, or its task is still to be admitted. -/
def Covered {α : Type} (f : Nat → α) (n : Nat) (rest : List Nat)
    (st : PLState α) : Prop :=
  ∀ j, j < n → st.results[j]? = some (some (f j)) ∨
    j ∈ st.inflight.map Prod.fst ∨ j ∈ rest

lemma mem_filter_or {α : Type} (l : List α) (q : α → Bool) (x : α) (h : x ∈ l) :
    x ∈ l.filter q ∨ x ∈ l.filter (fun y => ! q y) := by
  by_cases hq : q x
  · exact Or.inl (List.mem_filter.mpr ⟨h, hq⟩)
  · exact Or.inr (List.mem_filter.mpr ⟨h, by simp [hq]⟩)

lemma raceSettle_covered {α : Type} (f : Nat → α) (n : Nat) (rest : List Nat)
    (st : PLState α) (hlen : st.results.length = n)
    (hcov : Covered f n rest st) :
    (raceSettle f st).results.length = n ∧ Covered f n rest (raceSettle f st) := by
  constructor
  · rw [raceSettle]
    simp only
    rw [settleWrites_length]
    exact hlen
  · intro j hj
    rcases hcov j hj with hw | hin | hr
    · exact Or.inl (settleWrites_preserve f _ _ j hw)
    · obtain ⟨p, hp, hpj⟩ := List.mem_map.mp hin
      rcases mem_filter_or st.inflight
          (fun p => decide (p.2 ≤ minComp st.inflight)) p hp with hdone | hrem
      · left
        apply settleWrites_write f _ _ j (by omega)
        exact List.mem_map.mpr ⟨p, hdone, hpj⟩
      · right; left
        exact List.mem_map.mpr ⟨p, hrem, hpj⟩
    · exact Or.inr (Or.inr hr)

lemma plLoop_covered {α : Type} (f : Nat → α) (d : Nat → Nat) (c n : Nat) :
    ∀ (rest : List Nat) (st : PLState α),
      st.results.length = n → Covered f n rest st →
      (plLoop f d c rest st).results.length = n ∧
        Covered f n [] (plLoop f d c rest st) := by
  intro rest
  induction rest with
  | nil => intro st hlen hcov; exact ⟨hlen, hcov⟩
  | cons i rest ih =>
    intro st hlen hcov
    rw [plLoop]
    set fl := st.inflight ++ [(i, st.time + d i)] with hfl
    set st1 : PLState α := ⟨st.time, fl, st.results, max st.maxIn fl.length⟩ with hst1
    have hlen1 : st1.results.length = n := hlen
    have hcov1 : Covered f n rest st1 := by
      intro j hj
      rcases hcov j hj with hw | hin | hr
      · exact Or.inl hw
      · refine Or.inr (Or.inl ?_)
        rw [hst1]
        simp only [hfl, List.map_append]
        exact List.mem_append_left _ hin
      · rcases List.mem_cons.mp hr with rfl | hr2
        · refine Or.inr (Or.inl ?_)
          rw [hst1]
          simp [hfl]
        · exact Or.inr (Or.inr hr2)
    by_cases hcle : c ≤ fl.length
    · rw [if_pos hcle]
      obtain ⟨hlen2, hcov2⟩ := raceSettle_covered f n rest st1 hlen1 hcov1
      exact ih _ hlen2 hcov2
    · rw [if_neg hcle]
      exact ih _ hlen1 hcov1

lemma plLoop_maxIn {α : Type} (f : Nat → α) (d : Nat → Nat) (c : Nat) :
    ∀ (rest : List Nat) (st : PLState α),
      st.inflight.length + 1 ≤ c → st.maxIn ≤ c →
      (plLoop f d c rest st).maxIn ≤ c ∧
        (plLoop f d c rest st).inflight.length + 1 ≤ c := by
  intro rest
  induction rest with
  | nil => intro st h1 h2; exact ⟨h2, h1⟩
  | cons i rest ih =>
    intro st h1 h2
    rw [plLoop]
    set fl := st.inflight ++ [(i, st.time + d i)] with hfl
    have hfllen : fl.length = st.inflight.length + 1 := by simp [hfl]
    set st1 : PLState α := ⟨st.time, fl, st.results, max st.maxIn fl.length⟩ with hst1
    have hmax1 : st1.maxIn ≤ c := by
      rw [hst1]
      simp only
      omega
    by_cases hcle : c ≤ fl.length
    · rw [if_pos hcle]
      apply ih
      · -- the race settles at least one promise
        have hne : fl ≠ [] := by simp [hfl]
        obtain ⟨p, hp, hple⟩ := minComp_attained fl hne
        have hsplit :
            fl.length =
              (fl.filter (fun p => decide (p.2 ≤ minComp fl))).length +
                (fl.filter (fun p => ! decide (p.2 ≤ minComp fl))).length :=
          List.length_eq_length_filter_add _
        have hdone : p ∈ fl.filter (fun p => decide (p.2 ≤ minComp fl)) :=
          List.mem_filter.mpr ⟨hp, by simpa using hple⟩
        have hdone1 : 1 ≤ (fl.filter (fun p => decide (p.2 ≤ minComp fl))).length :=
          List.length_pos.mpr (fun hcon => by rw [hcon] at hdone; cases hdone)
        have hrs : (raceSettle f st1).inflight =
            fl.filter (fun p => ! decide (p.2 ≤ minComp fl)) := rfl
        rw [hrs]
        omega
      · exact (hmax1 : st1.maxIn ≤ c)
    · rw [if_neg hcle]
      exact ih st1 (by show fl.length + 1 ≤ c; omega) hmax1

example : parallelLimit (fun i => i) (fun _ => 10) 5 2 =
    ([some 0, some 1, some 2, some 3, some 4], 2) := by rfl
example : parallelLimit (fun i => i) (fun i => 5 - i) 3 2 =
    ([some 0, some 1, some 2], 2) := by rfl

/-- C4: in the discrete-event model of the single-threaded event loop, for
every task family, every assignment of completion durations (hence every
completion order), and every concurrency bound `c ≥ 1`: the number of
concurrently unsettled tasks never exceeds `c`, and the resolved array has
every task's value at that task's original index (in particular every task
eventually ran). -/
theorem parallelLimit_spec (α : Type) (f : Nat → α) (d : Nat → Nat) (n c : Nat)
    (hc : 1 ≤ c) :
    (parallelLimit f d n c).2 ≤ c ∧
    (parallelLimit f d n c).1 = (List.range n).map (fun i => some (f i)) := by
  constructor
  · exact (plLoop_maxIn f d c (List.range n) ⟨0, [], List.replicate n none, 0⟩
      (by simp; omega) (by simp)).1
  · obtain ⟨hlen, hcov⟩ := plLoop_covered f d c n (List.range n)
      ⟨0, [], List.replicate n none, 0⟩ (by simp)
      (fun j hj => Or.inr (Or.inr (List.mem_range.mpr hj)))
    set st := plLoop f d c (List.range n) ⟨0, [], List.replicate n none, 0⟩ with hst
    have hfin : ∀ j, j < n →
        (plDrain f st).results[j]? = some (some (f j)) := by
      intro j hj
      rcases hcov j hj with hw | hin | hr
      · exact settleWrites_preserve f _ _ j hw
      · exact settleWrites_write f _ _ j (by omega) hin
      · cases hr
    have hfinlen : (plDrain f st).results.length = n := by
      rw [plDrain]
      simp only
      rw [settleWrites_length]
      exact hlen
    have hunfold : (parallelLimit f d n c).1 = (plDrain f st).results := rfl
    rw [hunfold]
    apply List.ext_getElem?
    intro j
    by_cases hj : j < n
    · rw [hfin j hj, List.getElem?_map, List.getElem?_range hj]
      rfl
    · rw [List.getElem?_eq_none (by omega : (plDrain f st).results.length ≤ j),
        List.getElem?_eq_none (by simp; omega)]

/-- C4 witness: `parallelLimit_spec` with 5 tasks (task `i` returns `i`),
durations `5 - i` (so later-admitted tasks finish first and completion order
is the reverse of admission order), concurrency 2. -/
theorem parallelLimit_spec_witness :
    (parallelLimit (fun i => i) (fun i => 5 - i) 5 2).2 ≤ 2 ∧
    (parallelLimit (fun i => i) (fun i => 5 - i) 5 2).1 =
      (List.range 5).map (fun i => some i) :=
  parallelLimit_spec Nat (fun i => i) (fun i => 5 - i) 5 2 (by decide)

end TsDevCore
